import Mathlib

/-!
# Verification of the ceci pipeline orchestration engine

A shallow embedding of the ceci orchestration core: the job lifecycle state
machine, the mini scheduler's polling pass, the resource pool counters,
pipeline-graph construction from stage input/output tag declarations, resume
handling, per-stage configuration resolution, and the parallelization
attributes of a stage.

The Python implementation of the engine (ceci's `pipeline`, `minirunner`,
`stage` and `sites` modules) is not present in this source snapshot — only
its documentation, test configuration and exported workflow descriptions are.
Each definition below is therefore modelled from the specification's
description of the engine, as noted in its doc comment.
-/

namespace Ceci

/-- Modelled from the spec: the job lifecycle state machine of the mini
scheduler (`Pending → Runnable → Running → {Succeeded | Failed}` with
`Aborted` reachable from `Pending`/`Runnable`). -/
inductive JobState where
  | Pending
  | Runnable
  | Running
  | Succeeded
  | Failed
  | Aborted
deriving DecidableEq, Repr

/-- A state is terminal when the scheduler will never change it again. -/
def isTerminal : JobState → Bool
  | .Succeeded | .Failed | .Aborted => true
  | _ => false

/-- States a job can only reach after its readiness condition held
(everything except `Pending` and `Aborted`). -/
def everReady : JobState → Bool
  | .Pending | .Aborted => false
  | _ => true

/-- Modelled from the spec: the Site resource envelope (node count and cores
per node) consumed by the ResourcePool. -/
structure Site where
  nodes : Nat
  coresPerNode : Nat
deriving DecidableEq, Repr

/-- Total core count of a site. -/
def Site.totalCores (s : Site) : Nat := s.nodes * s.coresPerNode

/-- Modelled from the spec: the PipelineGraph as consumed by the scheduler —
per job, the list of direct predecessor job indices and the requested core
count, plus the Site the run uses. -/
structure MiniGraph where
  preds : List (List Nat)
  cores : List Nat
  site : Site
deriving Repr

/-- Number of jobs in the graph. -/
def MiniGraph.n (g : MiniGraph) : Nat := g.preds.length

/-- Modelled from the spec: the outcome environment of a run — per job,
whether its process exits with success status and whether all of its declared
output paths exist once it has exited. -/
structure Env where
  exitOk : List Bool
  outputsExist : List Bool
deriving Repr

/-- Modelled from the spec: the scheduler state — the lifecycle state of each
job, the cores currently allocated to each job, and the ResourcePool's free
core counter. -/
structure Sched where
  states : List JobState
  alloc : List Nat
  free : Nat
deriving Repr

/-- Lifecycle state of job `j` (out-of-range indices read as `Pending`). -/
def stGet (sts : List JobState) (j : Nat) : JobState := sts.getD j .Pending

/-- Pointwise construction of a state vector of length `n`. -/
def buildStates (n : Nat) (f : Nat → JobState) : List JobState :=
  (List.range n).map f

/-- Modelled from the spec, scheduler step 1: every `Pending` job whose
predecessors are all `Succeeded` becomes `Runnable`. -/
def promote (g : MiniGraph) (sts : List JobState) : List JobState :=
  buildStates sts.length fun j =>
    if stGet sts j = .Pending ∧
        ((g.preds.getD j []).all fun p => stGet sts p == .Succeeded) then
      .Runnable
    else stGet sts j

/-- One sweep of scheduler step 2: every `Pending`/`Runnable` job with a
`Failed` or `Aborted` predecessor becomes `Aborted`. -/
def abortSweep (g : MiniGraph) (sts : List JobState) : List JobState :=
  buildStates sts.length fun j =>
    if (stGet sts j = .Pending ∨ stGet sts j = .Runnable) ∧
        ((g.preds.getD j []).any fun p =>
          stGet sts p == .Failed || stGet sts p == .Aborted) then
      .Aborted
    else stGet sts j

/-- Modelled from the spec, scheduler step 2: the abort sweep iterated so the
cascade propagates transitively within the pass. -/
def abortCascade (g : MiniGraph) : Nat → List JobState → List JobState
  | 0, sts => sts
  | k + 1, sts => abortCascade g k (abortSweep g sts)

/-- One job's launch attempt: if job `j` is `Runnable` and the pool has its
requested cores free, the allocation is granted (`tryAcquire` succeeds), the
free counter decremented, and the job's process launched (`Running`);
otherwise the state is unchanged (`tryAcquire` is non-blocking). -/
def launchStep (g : MiniGraph) (acc : Sched) (j : Nat) : Sched :=
  if stGet acc.states j = .Runnable ∧ g.cores.getD j 0 ≤ acc.free then
    { states := acc.states.set j .Running,
      alloc := acc.alloc.set j (g.cores.getD j 0),
      free := acc.free - g.cores.getD j 0 }
  else acc

/-- Modelled from the spec, scheduler step 3: every `Runnable` job, in index
order, attempts a non-blocking acquire from the resource pool. -/
def launchPass (g : MiniGraph) (s : Sched) : Sched :=
  (List.range g.n).foldl (launchStep g) s

/-- Process outcome of job `j`: `Succeeded` iff the process exit status was
success and every declared output path exists, otherwise `Failed`. -/
def outcome (env : Env) (j : Nat) : JobState :=
  if env.exitOk.getD j false && env.outputsExist.getD j false then .Succeeded
  else .Failed

/-- One job's completion check: if job `j` is `Running` and its process has
been observed to exit, it moves to its outcome state and its resource
allocation is released back to the pool. -/
def finishStep (env : Env) (exited : List Nat) (acc : Sched) (j : Nat) :
    Sched :=
  if stGet acc.states j = .Running ∧ j ∈ exited then
    { states := acc.states.set j (outcome env j),
      alloc := acc.alloc.set j 0,
      free := acc.free + acc.alloc.getD j 0 }
  else acc

/-- Modelled from the spec, scheduler step 4: every `Running` job whose
process has exited moves to its outcome state and its resource allocation is
released back to the pool. -/
def finishPass (g : MiniGraph) (env : Env) (exited : List Nat) (s : Sched) :
    Sched :=
  (List.range g.n).foldl (finishStep env exited) s

/-- Modelled from the spec: one full poll pass of the mini scheduler (steps
1–4 in order; the sleep of step 5 is I/O and does not change the state). The
per-pass input `exited` lists the jobs whose processes were observed to have
exited during this pass. -/
def pass (g : MiniGraph) (env : Env) (exited : List Nat) (s : Sched) : Sched :=
  let s1 : Sched := { s with states := promote g s.states }
  let s2 : Sched := { s1 with states := abortCascade g g.n s1.states }
  finishPass g env exited (launchPass g s2)

/-- A run of the scheduler: the poll passes executed in order, driven by the
trace of per-pass process-exit observations. -/
def runTrace (g : MiniGraph) (env : Env) (trace : List (List Nat))
    (s : Sched) : Sched :=
  trace.foldl (fun acc ex => pass g env ex acc) s

/-- Modelled from the spec: the initial scheduler state of a fresh run —
every job `Pending`, no allocations, the pool holding the Site's full core
count. -/
def initSched (g : MiniGraph) : Sched :=
  ⟨List.replicate g.n .Pending, List.replicate g.n 0, g.site.totalCores⟩

/-- Sum of the cores of all currently `Running` jobs. -/
def runningCores (g : MiniGraph) (s : Sched) : Nat :=
  ((List.range g.n).map fun j =>
    if stGet s.states j = .Running then g.cores.getD j 0 else 0).sum

/-- Every job of the run is in a terminal state. -/
def allTerminal (s : Sched) : Bool := s.states.all isTerminal

/-- Modelled from the spec: the run report's overall success — true iff every
job `Succeeded`. -/
def overallSuccess (s : Sched) : Bool := s.states.all (· == .Succeeded)

/-- Reachability along dependency edges: `Reaches preds a b` holds when there
is a nonempty path of edges from job `a` to job `b` (an edge `x → y` meaning
`x ∈ preds y`, i.e. `y` consumes an output of `x`). -/
inductive Reaches (preds : List (List Nat)) : Nat → Nat → Prop where
  | edge {a b : Nat} (h : a ∈ preds.getD b []) : Reaches preds a b
  | tail {a b c : Nat} (hr : Reaches preds a b) (h : b ∈ preds.getD c []) :
      Reaches preds a c

/-! ## Pointwise characterization of the scheduler phases -/

theorem stGet_eq_getElem? (sts : List JobState) (j : Nat) :
    stGet sts j = (sts[j]?).getD .Pending :=
  List.getD_eq_getElem?_getD sts j .Pending

theorem stGet_of_le (sts : List JobState) {j : Nat} (h : sts.length ≤ j) :
    stGet sts j = .Pending := by
  rw [stGet_eq_getElem?, List.getElem?_eq_none h]
  rfl

theorem length_buildStates (n : Nat) (f : Nat → JobState) :
    (buildStates n f).length = n := by
  simp [buildStates]

theorem stGet_buildStates (n : Nat) (f : Nat → JobState) (j : Nat) :
    stGet (buildStates n f) j = if j < n then f j else .Pending := by
  rw [stGet_eq_getElem?]
  by_cases h : j < n
  · simp [buildStates, List.getElem?_map, List.getElem?_range h, h]
  · rw [buildStates, List.getElem?_map, List.getElem?_eq_none (by simpa using Nat.le_of_not_lt h)]
    simp [h]

theorem getD_set {α : Type} (l : List α) (k j : Nat) (v d : α) :
    (l.set k v).getD j d = if j = k ∧ k < l.length then v else l.getD j d := by
  rw [List.getD_eq_getElem?_getD, List.getD_eq_getElem?_getD]
  by_cases hjk : j = k
  · subst hjk
    by_cases hk : j < l.length
    · simp [List.getElem?_set_self', List.getElem?_eq_getElem hk, hk]
    · rw [List.set_eq_of_length_le (Nat.le_of_not_lt hk)]
      simp [hk]
  · rw [List.getElem?_set_ne (Ne.symm hjk)]
    simp [hjk]

theorem stGet_set (sts : List JobState) (k j : Nat) (v : JobState) :
    stGet (sts.set k v) j =
      if j = k ∧ k < sts.length then v else stGet sts j :=
  getD_set sts k j v .Pending

theorem length_promote (g : MiniGraph) (sts : List JobState) :
    (promote g sts).length = sts.length := length_buildStates ..

theorem stGet_promote_lt (g : MiniGraph) (sts : List JobState) {j : Nat}
    (h : j < sts.length) :
    stGet (promote g sts) j =
      if stGet sts j = .Pending ∧
          ((g.preds.getD j []).all fun p => stGet sts p == .Succeeded) then
        .Runnable
      else stGet sts j := by
  rw [promote, stGet_buildStates, if_pos h]

/-- Step 1 changes a job's state only from `Pending` to `Runnable`, and only
when all its predecessors are `Succeeded`. -/
theorem promote_char (g : MiniGraph) (sts : List JobState) (j : Nat) :
    stGet (promote g sts) j = stGet sts j ∨
      (stGet sts j = .Pending ∧ stGet (promote g sts) j = .Runnable ∧
        ∀ p ∈ g.preds.getD j [], stGet sts p = .Succeeded) := by
  by_cases h : j < sts.length
  · rw [stGet_promote_lt g sts h]
    by_cases hc : stGet sts j = .Pending ∧
        ((g.preds.getD j []).all fun p => stGet sts p == .Succeeded)
    · right
      refine ⟨hc.1, by rw [if_pos hc], fun p hp => ?_⟩
      have := List.all_eq_true.mp hc.2 p hp
      exact beq_iff_eq.mp this
    · left
      rw [if_neg hc]
  · left
    rw [promote, stGet_buildStates, if_neg h, stGet_of_le sts (Nat.le_of_not_lt h)]

theorem length_abortSweep (g : MiniGraph) (sts : List JobState) :
    (abortSweep g sts).length = sts.length := length_buildStates ..

/-- One abort sweep changes a job's state only from `Pending`/`Runnable` to
`Aborted`. -/
theorem abortSweep_char (g : MiniGraph) (sts : List JobState) (j : Nat) :
    stGet (abortSweep g sts) j = stGet sts j ∨
      ((stGet sts j = .Pending ∨ stGet sts j = .Runnable) ∧
        stGet (abortSweep g sts) j = .Aborted) := by
  by_cases h : j < sts.length
  · rw [abortSweep, stGet_buildStates, if_pos h]
    by_cases hc : (stGet sts j = .Pending ∨ stGet sts j = .Runnable) ∧
        ((g.preds.getD j []).any fun p =>
          stGet sts p == .Failed || stGet sts p == .Aborted)
    · right
      exact ⟨hc.1, by rw [if_pos hc]⟩
    · left
      rw [if_neg hc]
  · left
    rw [abortSweep, stGet_buildStates, if_neg h, stGet_of_le sts (Nat.le_of_not_lt h)]

theorem length_abortCascade (g : MiniGraph) (k : Nat) (sts : List JobState) :
    (abortCascade g k sts).length = sts.length := by
  induction k generalizing sts with
  | zero => rfl
  | succ k ih => rw [abortCascade, ih, length_abortSweep]

/-- Step 2 (the iterated sweep) changes a job's state only from
`Pending`/`Runnable` to `Aborted`. -/
theorem abortCascade_char (g : MiniGraph) (k : Nat) (sts : List JobState)
    (j : Nat) :
    stGet (abortCascade g k sts) j = stGet sts j ∨
      ((stGet sts j = .Pending ∨ stGet sts j = .Runnable) ∧
        stGet (abortCascade g k sts) j = .Aborted) := by
  induction k generalizing sts with
  | zero => left; rfl
  | succ k ih =>
    rcases ih (abortSweep g sts) with h2 | ⟨h2a, h2b⟩
    · rw [abortCascade, h2]
      exact abortSweep_char g sts j
    · rcases abortSweep_char g sts j with h1 | ⟨h1a, h1b⟩
      · rw [h1] at h2a
        exact Or.inr ⟨h2a, by rw [abortCascade]; exact h2b⟩
      · rw [h1b] at h2a
        rcases h2a with h | h <;> cases h

/-- A launch attempt changes a job's state only from `Runnable` to
`Running`. -/
theorem launchStep_char (g : MiniGraph) (acc : Sched) (j k : Nat) :
    stGet (launchStep g acc j).states k = stGet acc.states k ∨
      (stGet acc.states k = .Runnable ∧
        stGet (launchStep g acc j).states k = .Running) := by
  rw [launchStep]
  by_cases hc : stGet acc.states j = .Runnable ∧ g.cores.getD j 0 ≤ acc.free
  · rw [if_pos hc]
    show stGet (acc.states.set j .Running) k = _ ∨ _
    rw [stGet_set]
    by_cases hkj : k = j ∧ j < acc.states.length
    · right
      rw [if_pos hkj]
      exact ⟨hkj.1 ▸ hc.1, rfl⟩
    · left
      rw [if_neg hkj]
  · rw [if_neg hc]
    left; rfl

/-- Step 3 changes a job's state only from `Runnable` to `Running`. -/
theorem launch_fold_char (g : MiniGraph) (l : List Nat) (acc : Sched)
    (k : Nat) :
    stGet (l.foldl (launchStep g) acc).states k = stGet acc.states k ∨
      (stGet acc.states k = .Runnable ∧
        stGet (l.foldl (launchStep g) acc).states k = .Running) := by
  induction l generalizing acc with
  | nil => left; rfl
  | cons j t ih =>
    rw [List.foldl_cons]
    rcases ih (launchStep g acc j) with h | ⟨h1, h2⟩
    · rw [h]
      exact launchStep_char g acc j k
    · rcases launchStep_char g acc j k with hs | ⟨hs1, hs2⟩
      · rw [hs] at h1
        exact Or.inr ⟨h1, h2⟩
      · rw [hs2] at h1
        cases h1

/-- A completion check changes a job's state only from `Running` to
`Succeeded` or `Failed`. -/
theorem finishStep_char (env : Env) (exited : List Nat) (acc : Sched)
    (j k : Nat) :
    stGet (finishStep env exited acc j).states k = stGet acc.states k ∨
      (stGet acc.states k = .Running ∧
        (stGet (finishStep env exited acc j).states k = .Succeeded ∨
         stGet (finishStep env exited acc j).states k = .Failed)) := by
  rw [finishStep]
  by_cases hc : stGet acc.states j = .Running ∧ j ∈ exited
  · rw [if_pos hc]
    show stGet (acc.states.set j (outcome env j)) k = _ ∨ _
    rw [stGet_set]
    by_cases hkj : k = j ∧ j < acc.states.length
    · right
      rw [if_pos hkj]
      refine ⟨hkj.1 ▸ hc.1, ?_⟩
      rw [outcome]
      by_cases ho : (env.exitOk.getD j false && env.outputsExist.getD j false) = true
      · left; rw [if_pos ho]
      · right; rw [if_neg ho]
    · left
      rw [if_neg hkj]
  · rw [if_neg hc]
    left; rfl

/-- Step 4 changes a job's state only from `Running` to `Succeeded` or
`Failed`. -/
theorem finish_fold_char (env : Env) (exited : List Nat) (l : List Nat)
    (acc : Sched) (k : Nat) :
    stGet (l.foldl (finishStep env exited) acc).states k = stGet acc.states k ∨
      (stGet acc.states k = .Running ∧
        (stGet (l.foldl (finishStep env exited) acc).states k = .Succeeded ∨
         stGet (l.foldl (finishStep env exited) acc).states k = .Failed)) := by
  induction l generalizing acc with
  | nil => left; rfl
  | cons j t ih =>
    rw [List.foldl_cons]
    rcases ih (finishStep env exited acc j) with h | ⟨h1, h2⟩
    · rw [h]
      exact finishStep_char env exited acc j k
    · rcases finishStep_char env exited acc j k with hs | ⟨hs1, hs2⟩
      · rw [hs] at h1
        exact Or.inr ⟨h1, h2⟩
      · rcases hs2 with h' | h' <;> rw [h'] at h1 <;> cases h1

/-! ## Terminal states are frozen -/

theorem promote_term (g : MiniGraph) (sts : List JobState) (j : Nat)
    (h : isTerminal (stGet sts j) = true) :
    stGet (promote g sts) j = stGet sts j := by
  rcases promote_char g sts j with h' | ⟨h1, _, _⟩
  · exact h'
  · rw [h1] at h
    simp [isTerminal] at h

theorem abortCascade_term (g : MiniGraph) (k : Nat) (sts : List JobState)
    (j : Nat) (h : isTerminal (stGet sts j) = true) :
    stGet (abortCascade g k sts) j = stGet sts j := by
  rcases abortCascade_char g k sts j with h' | ⟨h1, _⟩
  · exact h'
  · rcases h1 with h1 | h1 <;> rw [h1] at h <;> simp [isTerminal] at h

theorem launchPass_term (g : MiniGraph) (s : Sched) (j : Nat)
    (h : isTerminal (stGet s.states j) = true) :
    stGet (launchPass g s).states j = stGet s.states j := by
  rcases launch_fold_char g (List.range g.n) s j with h' | ⟨h1, _⟩
  · exact h'
  · rw [h1] at h
    simp [isTerminal] at h

theorem finishPass_term (g : MiniGraph) (env : Env) (exited : List Nat)
    (s : Sched) (j : Nat) (h : isTerminal (stGet s.states j) = true) :
    stGet (finishPass g env exited s).states j = stGet s.states j := by
  rcases finish_fold_char env exited (List.range g.n) s j with h' | ⟨h1, _⟩
  · exact h'
  · rw [h1] at h
    simp [isTerminal] at h

/-- The scheduler state after step 2 of a pass, before launching. -/
def midPass (g : MiniGraph) (s : Sched) : Sched :=
  { s with states := abortCascade g g.n (promote g s.states) }

theorem pass_eq (g : MiniGraph) (env : Env) (exited : List Nat) (s : Sched) :
    pass g env exited s = finishPass g env exited (launchPass g (midPass g s)) :=
  rfl

theorem midPass_term (g : MiniGraph) (s : Sched) (j : Nat)
    (h : isTerminal (stGet s.states j) = true) :
    stGet (midPass g s).states j = stGet s.states j := by
  show stGet (abortCascade g g.n (promote g s.states)) j = _
  rw [abortCascade_term g g.n (promote g s.states) j (by rw [promote_term g s.states j h]; exact h),
    promote_term g s.states j h]

/-- A full poll pass never changes a terminal job's state. -/
theorem pass_term (g : MiniGraph) (env : Env) (exited : List Nat) (s : Sched)
    (j : Nat) (h : isTerminal (stGet s.states j) = true) :
    stGet (pass g env exited s).states j = stGet s.states j := by
  rw [pass_eq]
  have h1 := midPass_term g s j h
  have h2 := launchPass_term g (midPass g s) j (by rw [h1]; exact h)
  rw [finishPass_term g env exited _ j (by rw [h2, h1]; exact h), h2, h1]

/-- No number of poll passes changes a terminal job's state. -/
theorem runTrace_term (g : MiniGraph) (env : Env) (trace : List (List Nat))
    (s : Sched) (j : Nat) (h : isTerminal (stGet s.states j) = true) :
    stGet (runTrace g env trace s).states j = stGet s.states j := by
  induction trace generalizing s with
  | nil => rfl
  | cons ex tr ih =>
    show stGet (runTrace g env tr (pass g env ex s)).states j = _
    rw [ih (pass g env ex s) (by rw [pass_term g env ex s j h]; exact h),
      pass_term g env ex s j h]

/-! ## The dependency invariant -/

/-- The central safety invariant of the scheduler: any job that has ever
passed its readiness check (any state except `Pending`/`Aborted`) has all of
its predecessors `Succeeded`. -/
def DepInv (g : MiniGraph) (sts : List JobState) : Prop :=
  ∀ j p, everReady (stGet sts j) = true → p ∈ g.preds.getD j [] →
    stGet sts p = .Succeeded

theorem promote_succ (g : MiniGraph) (sts : List JobState) (p : Nat)
    (h : stGet sts p = .Succeeded) : stGet (promote g sts) p = .Succeeded := by
  rw [promote_term g sts p (by rw [h]; rfl), h]

theorem promote_depinv (g : MiniGraph) (sts : List JobState)
    (hinv : DepInv g sts) : DepInv g (promote g sts) := by
  intro j p hr hp
  rcases promote_char g sts j with h | ⟨_, _, hall⟩
  · rw [h] at hr
    exact promote_succ g sts p (hinv j p hr hp)
  · exact promote_succ g sts p (hall p hp)

theorem abortCascade_succ (g : MiniGraph) (k : Nat) (sts : List JobState)
    (p : Nat) (h : stGet sts p = .Succeeded) :
    stGet (abortCascade g k sts) p = .Succeeded := by
  rw [abortCascade_term g k sts p (by rw [h]; rfl), h]

theorem abortCascade_depinv (g : MiniGraph) (k : Nat) (sts : List JobState)
    (hinv : DepInv g sts) : DepInv g (abortCascade g k sts) := by
  intro j p hr hp
  rcases abortCascade_char g k sts j with h | ⟨_, hab⟩
  · rw [h] at hr
    exact abortCascade_succ g k sts p (hinv j p hr hp)
  · rw [hab] at hr
    simp [everReady] at hr

theorem launchPass_succ (g : MiniGraph) (s : Sched) (p : Nat)
    (h : stGet s.states p = .Succeeded) :
    stGet (launchPass g s).states p = .Succeeded := by
  rw [launchPass_term g s p (by rw [h]; rfl), h]

theorem launchPass_depinv (g : MiniGraph) (s : Sched)
    (hinv : DepInv g s.states) : DepInv g (launchPass g s).states := by
  intro j p hr hp
  simp only [launchPass] at hr ⊢
  rcases launch_fold_char g (List.range g.n) s j with h | ⟨h1, _⟩
  · rw [h] at hr
    exact launchPass_succ g s p (hinv j p hr hp)
  · exact launchPass_succ g s p (hinv j p (by rw [h1]; rfl) hp)

theorem finishPass_succ (g : MiniGraph) (env : Env) (exited : List Nat)
    (s : Sched) (p : Nat) (h : stGet s.states p = .Succeeded) :
    stGet (finishPass g env exited s).states p = .Succeeded := by
  rw [finishPass_term g env exited s p (by rw [h]; rfl), h]

theorem finishPass_depinv (g : MiniGraph) (env : Env) (exited : List Nat)
    (s : Sched) (hinv : DepInv g s.states) :
    DepInv g (finishPass g env exited s).states := by
  intro j p hr hp
  simp only [finishPass] at hr ⊢
  rcases finish_fold_char env exited (List.range g.n) s j with h | ⟨h1, _⟩
  · rw [h] at hr
    exact finishPass_succ g env exited s p (hinv j p hr hp)
  · exact finishPass_succ g env exited s p (hinv j p (by rw [h1]; rfl) hp)

/-- A full poll pass preserves the dependency invariant. -/
theorem pass_depinv (g : MiniGraph) (env : Env) (exited : List Nat)
    (s : Sched) (hinv : DepInv g s.states) :
    DepInv g (pass g env exited s).states := by
  rw [pass_eq]
  exact finishPass_depinv g env exited _
    (launchPass_depinv g _ (abortCascade_depinv g g.n _ (promote_depinv g _ hinv)))

theorem runTrace_depinv (g : MiniGraph) (env : Env) (trace : List (List Nat))
    (s : Sched) (hinv : DepInv g s.states) :
    DepInv g (runTrace g env trace s).states := by
  induction trace generalizing s with
  | nil => exact hinv
  | cons ex tr ih => exact ih (pass g env ex s) (pass_depinv g env ex s hinv)

theorem stGet_replicate_pending (n j : Nat) :
    stGet (List.replicate n .Pending) j = .Pending := by
  rw [stGet_eq_getElem?]
  by_cases h : j < n
  · simp [List.getElem?_replicate, h]
  · rw [List.getElem?_eq_none (by simpa using Nat.le_of_not_lt h)]
    rfl

/-- The fresh-run initial state satisfies the dependency invariant. -/
theorem initSched_depinv (g : MiniGraph) : DepInv g (initSched g).states := by
  intro j p hr _
  rw [show (initSched g).states = List.replicate g.n .Pending from rfl,
    stGet_replicate_pending] at hr
  simp [everReady] at hr

/-! ## Length preservation through a pass -/

theorem launchStep_states_length (g : MiniGraph) (acc : Sched) (j : Nat) :
    (launchStep g acc j).states.length = acc.states.length := by
  rw [launchStep]
  by_cases hc : stGet acc.states j = .Runnable ∧ g.cores.getD j 0 ≤ acc.free
  · rw [if_pos hc]
    exact List.length_set ..
  · rw [if_neg hc]

theorem finishStep_states_length (env : Env) (exited : List Nat) (acc : Sched)
    (j : Nat) :
    (finishStep env exited acc j).states.length = acc.states.length := by
  rw [finishStep]
  by_cases hc : stGet acc.states j = .Running ∧ j ∈ exited
  · rw [if_pos hc]
    exact List.length_set ..
  · rw [if_neg hc]

theorem launchPass_states_length (g : MiniGraph) (s : Sched) :
    (launchPass g s).states.length = s.states.length := by
  rw [launchPass]
  generalize List.range g.n = l
  induction l generalizing s with
  | nil => rfl
  | cons j t ih =>
    rw [List.foldl_cons, ih (launchStep g s j), launchStep_states_length]

theorem finishPass_states_length (g : MiniGraph) (env : Env)
    (exited : List Nat) (s : Sched) :
    (finishPass g env exited s).states.length = s.states.length := by
  rw [finishPass]
  generalize List.range g.n = l
  induction l generalizing s with
  | nil => rfl
  | cons j t ih =>
    rw [List.foldl_cons, ih (finishStep env exited s j), finishStep_states_length]

theorem pass_states_length (g : MiniGraph) (env : Env) (exited : List Nat)
    (s : Sched) : (pass g env exited s).states.length = s.states.length := by
  rw [pass_eq, finishPass_states_length, launchPass_states_length]
  show (abortCascade g g.n (promote g s.states)).length = _
  rw [length_abortCascade, length_promote]

theorem runTrace_states_length (g : MiniGraph) (env : Env)
    (trace : List (List Nat)) (s : Sched) :
    (runTrace g env trace s).states.length = s.states.length := by
  induction trace generalizing s with
  | nil => rfl
  | cons ex tr ih =>
    show (runTrace g env tr (pass g env ex s)).states.length = _
    rw [ih (pass g env ex s), pass_states_length]

theorem initSched_states_length (g : MiniGraph) :
    (initSched g).states.length = g.n := List.length_replicate ..

/-! ## Reachability facts -/

theorem reaches_lt (preds : List (List Nat)) {a b : Nat}
    (h : Reaches preds a b) : b < preds.length := by
  cases h with
  | edge h =>
    by_contra hb
    rw [List.getD_eq_default _ _ (Nat.le_of_not_lt hb)] at h
    cases h
  | tail hr h =>
    by_contra hb
    rw [List.getD_eq_default _ _ (Nat.le_of_not_lt hb)] at h
    cases h

/-- Under the dependency invariant, every job from which a job in a
post-readiness state is reachable has `Succeeded`. -/
theorem reaches_succeeded (g : MiniGraph) (sts : List JobState)
    (hinv : DepInv g sts) {a b : Nat} (hr : Reaches g.preds a b)
    (hb : everReady (stGet sts b) = true) : stGet sts a = .Succeeded := by
  induction hr with
  | edge h => exact hinv _ _ hb h
  | tail hr h ih => exact ih (by rw [hinv _ _ hb h]; rfl)

theorem allTerminal_stGet (s : Sched) (b : Nat) (hterm : allTerminal s = true)
    (hb : b < s.states.length) : isTerminal (stGet s.states b) = true := by
  rw [stGet_eq_getElem?, List.getElem?_eq_getElem hb]
  exact List.all_eq_true.mp hterm _ (List.getElem_mem hb)

/-! ## Concrete example pipelines used to instantiate the theorems -/

/-- Two-job pipeline with one edge `0 → 1`, one node with two cores, one
core per job. -/
def gAB : MiniGraph := ⟨[[], [0]], [1, 1], ⟨1, 2⟩⟩

/-- Environment in which both processes exit with success status and create
all of their declared outputs. -/
def envAB : Env := ⟨[true, true], [true, true]⟩

/-- Environment in which job 0's process exits with failure status. -/
def envABfail : Env := ⟨[false, true], [true, true]⟩

/-! ## Claims about the scheduler -/

/-- **C1.** In every run of the scheduler, for every dependency edge `a → b`
in the pipeline graph, whenever `b` is `Runnable` or `Running`, job `a` is
terminal (in fact `Succeeded`): all of a job's predecessors are terminal
before the job is ever considered `Runnable`, so `b` never enters `Running`
while `a` is non-terminal. -/
theorem dependency_ordering (g : MiniGraph) (env : Env)
    (trace : List (List Nat)) (a b : Nat) (hedge : a ∈ g.preds.getD b [])
    (hb : stGet (runTrace g env trace (initSched g)).states b = .Runnable ∨
          stGet (runTrace g env trace (initSched g)).states b = .Running) :
    isTerminal (stGet (runTrace g env trace (initSched g)).states a) = true := by
  have hinv := runTrace_depinv g env trace (initSched g) (initSched_depinv g)
  have hready : everReady (stGet (runTrace g env trace (initSched g)).states b) = true := by
    rcases hb with h | h <;> rw [h] <;> rfl
  rw [hinv b a hready hedge]
  rfl

/-- Witness for C1: in the concrete two-job run, job 1 is `Running` after
three passes and its predecessor job 0 is terminal there. -/
theorem dependency_ordering_witness :
    (0 ∈ gAB.preds.getD 1 [] ∧
      stGet (runTrace gAB envAB [[], [0], []] (initSched gAB)).states 1 = .Running) ∧
    isTerminal (stGet (runTrace gAB envAB [[], [0], []] (initSched gAB)).states 0) = true :=
  ⟨⟨by decide, by decide⟩,
    dependency_ordering gAB envAB [[], [0], []] 0 1 (by decide) (Or.inr (by decide))⟩

/-- **C2.** In every run in which job `a` ends `Failed`, every job `b`
reachable from `a` along graph edges is never launched (it is not `Running`
after any prefix of the run), and once the run has driven every job to a
terminal state, `b` is `Aborted`. -/
theorem failure_cascade (g : MiniGraph) (env : Env) (trace : List (List Nat))
    (a b : Nat) (hreach : Reaches g.preds a b)
    (ha : stGet (runTrace g env trace (initSched g)).states a = .Failed) :
    (∀ t1 t2, trace = t1 ++ t2 →
      stGet (runTrace g env t1 (initSched g)).states b ≠ .Running) ∧
    (allTerminal (runTrace g env trace (initSched g)) = true →
      stGet (runTrace g env trace (initSched g)).states b = .Aborted) := by
  constructor
  · intro t1 t2 ht hb
    have hinv := runTrace_depinv g env t1 (initSched g) (initSched_depinv g)
    have hsucc : stGet (runTrace g env t1 (initSched g)).states a = .Succeeded :=
      reaches_succeeded g _ hinv hreach (by rw [hb]; rfl)
    have hfin : stGet (runTrace g env trace (initSched g)).states a = .Succeeded := by
      rw [ht, runTrace, List.foldl_append]
      show stGet (runTrace g env t2 (runTrace g env t1 (initSched g))).states a = _
      rw [runTrace_term g env t2 _ a (by rw [hsucc]; rfl), hsucc]
    rw [hfin] at ha
    cases ha
  · intro hterm
    have hinv := runTrace_depinv g env trace (initSched g) (initSched_depinv g)
    have hblt : b < (runTrace g env trace (initSched g)).states.length := by
      rw [runTrace_states_length, initSched_states_length]
      exact reaches_lt g.preds hreach
    have hbterm := allTerminal_stGet _ b hterm hblt
    cases hsb : stGet (runTrace g env trace (initSched g)).states b with
    | Pending => rw [hsb] at hbterm; cases hbterm
    | Runnable => rw [hsb] at hbterm; cases hbterm
    | Running => rw [hsb] at hbterm; cases hbterm
    | Aborted => rfl
    | Succeeded =>
      have := reaches_succeeded g _ hinv hreach (by rw [hsb]; rfl)
      rw [this] at ha
      cases ha
    | Failed =>
      have := reaches_succeeded g _ hinv hreach (by rw [hsb]; rfl)
      rw [this] at ha
      cases ha

/-- Witness for C2: in the concrete two-job run where job 0's process fails,
job 1 ends `Aborted`. -/
theorem failure_cascade_witness :
    (stGet (runTrace gAB envABfail [[], [0], []] (initSched gAB)).states 0 = .Failed ∧
      allTerminal (runTrace gAB envABfail [[], [0], []] (initSched gAB)) = true) ∧
    stGet (runTrace gAB envABfail [[], [0], []] (initSched gAB)).states 1 = .Aborted :=
  ⟨⟨by decide, by decide⟩,
    (failure_cascade gAB envABfail [[], [0], []] 0 1 (Reaches.edge (by decide))
      (by decide)).2 (by decide)⟩

/-! ## The resource accounting invariant -/

theorem lt_length_of_stGet_ne_pending (sts : List JobState) (j : Nat)
    (h : stGet sts j ≠ .Pending) : j < sts.length := by
  by_contra hb
  exact h (stGet_of_le sts (Nat.le_of_not_lt hb))

theorem sum_set_nat (l : List Nat) (j v : Nat) (h : j < l.length) :
    (l.set j v).sum + l.getD j 0 = l.sum + v := by
  induction l generalizing j with
  | nil => cases h
  | cons x t ih =>
    cases j with
    | zero => simp [List.sum_cons]; omega
    | succ j =>
      have h' : j < t.length := Nat.lt_of_succ_lt_succ h
      have := ih j h'
      simp only [List.set_cons_succ, List.sum_cons, List.getD_cons_succ]
      omega

/-- The resource-pool accounting invariant: the free counter plus all
outstanding allocations equals the Site's total core count, only `Running`
jobs hold an allocation, and each `Running` job holds exactly its requested
cores. -/
def ResInv (g : MiniGraph) (s : Sched) : Prop :=
  s.states.length = g.n ∧ s.alloc.length = g.n ∧
  s.free + s.alloc.sum = g.site.totalCores ∧
  (∀ j, stGet s.states j ≠ .Running → s.alloc.getD j 0 = 0) ∧
  (∀ j, stGet s.states j = .Running → s.alloc.getD j 0 = g.cores.getD j 0)

theorem midPass_running_iff (g : MiniGraph) (s : Sched) (j : Nat) :
    stGet (midPass g s).states j = .Running ↔ stGet s.states j = .Running := by
  show stGet (abortCascade g g.n (promote g s.states)) j = .Running ↔ _
  constructor
  · intro h
    rcases abortCascade_char g g.n (promote g s.states) j with h1 | ⟨_, h1⟩
    · rw [h1] at h
      rcases promote_char g s.states j with h2 | ⟨_, h2, _⟩
      · rw [h2] at h; exact h
      · rw [h2] at h; cases h
    · rw [h1] at h; cases h
  · intro h
    have h1 : stGet (promote g s.states) j = .Running := by
      rcases promote_char g s.states j with h1 | ⟨h1, _, _⟩
      · rw [h1]; exact h
      · rw [h] at h1; cases h1
    rcases abortCascade_char g g.n (promote g s.states) j with h2 | ⟨h2, _⟩
    · rw [h2]; exact h1
    · rcases h2 with h2 | h2 <;> rw [h1] at h2 <;> cases h2

theorem midPass_resinv (g : MiniGraph) (s : Sched) (hinv : ResInv g s) :
    ResInv g (midPass g s) := by
  obtain ⟨h1, h2, h3, h4, h5⟩ := hinv
  refine ⟨?_, h2, h3, ?_, ?_⟩
  · show (abortCascade g g.n (promote g s.states)).length = g.n
    rw [length_abortCascade, length_promote, h1]
  · intro j hj
    exact h4 j fun hr => hj ((midPass_running_iff g s j).mpr hr)
  · intro j hj
    exact h5 j ((midPass_running_iff g s j).mp hj)

theorem launchStep_resinv (g : MiniGraph) (acc : Sched) (j : Nat)
    (hinv : ResInv g acc) : ResInv g (launchStep g acc j) := by
  obtain ⟨h1, h2, h3, h4, h5⟩ := hinv
  rw [launchStep]
  by_cases hc : stGet acc.states j = .Runnable ∧ g.cores.getD j 0 ≤ acc.free
  · rw [if_pos hc]
    obtain ⟨hrb, hfree⟩ := hc
    have hjlt : j < acc.states.length :=
      lt_length_of_stGet_ne_pending acc.states j (by rw [hrb]; intro h; cases h)
    have hjn : j < g.n := h1 ▸ hjlt
    have hjalloc : j < acc.alloc.length := h2 ▸ hjn
    have hzero : acc.alloc.getD j 0 = 0 := h4 j (by rw [hrb]; intro h; cases h)
    have hsum := sum_set_nat acc.alloc j (g.cores.getD j 0) hjalloc
    rw [hzero] at hsum
    refine ⟨by simpa [List.length_set] using h1, by simpa [List.length_set] using h2, by simp only; omega, ?_, ?_⟩
    · intro k hk
      simp only [stGet_set] at hk
      by_cases hkj : k = j ∧ j < acc.states.length
      · rw [if_pos hkj] at hk
        exact absurd rfl hk
      · rw [if_neg hkj] at hk
        have hne : ¬(k = j ∧ j < acc.alloc.length) := by
          intro ⟨ha, _⟩
          exact hkj ⟨ha, hjlt⟩
        simp only [getD_set, if_neg hne]
        exact h4 k hk
    · intro k hk
      simp only [stGet_set] at hk
      by_cases hkj : k = j ∧ j < acc.states.length
      · obtain ⟨hk1, _⟩ := hkj
        subst hk1
        simp [getD_set, hjalloc]
      · rw [if_neg hkj] at hk
        have hne : ¬(k = j ∧ j < acc.alloc.length) := by
          intro ⟨ha, _⟩
          exact hkj ⟨ha, hjlt⟩
        simp only [getD_set, if_neg hne]
        exact h5 k hk
  · rw [if_neg hc]
    exact ⟨h1, h2, h3, h4, h5⟩

theorem outcome_ne_running (env : Env) (j : Nat) : outcome env j ≠ .Running := by
  rw [outcome]
  by_cases h : (env.exitOk.getD j false && env.outputsExist.getD j false) = true
  · rw [if_pos h]; intro h'; cases h'
  · rw [if_neg h]; intro h'; cases h'

theorem finishStep_resinv (g : MiniGraph) (env : Env) (exited : List Nat)
    (acc : Sched) (j : Nat) (hinv : ResInv g acc) :
    ResInv g (finishStep env exited acc j) := by
  obtain ⟨h1, h2, h3, h4, h5⟩ := hinv
  rw [finishStep]
  by_cases hc : stGet acc.states j = .Running ∧ j ∈ exited
  · rw [if_pos hc]
    obtain ⟨hrn, _⟩ := hc
    have hjlt : j < acc.states.length :=
      lt_length_of_stGet_ne_pending acc.states j (by rw [hrn]; intro h; cases h)
    have hjalloc : j < acc.alloc.length := h2 ▸ h1 ▸ hjlt
    have hsum := sum_set_nat acc.alloc j 0 hjalloc
    refine ⟨by simpa [List.length_set] using h1, by simpa [List.length_set] using h2, by simp only; omega, ?_, ?_⟩
    · intro k hk
      by_cases hkj : k = j ∧ j < acc.alloc.length
      · simp only [getD_set, if_pos hkj]
      · simp only [getD_set, if_neg hkj]
        refine h4 k ?_
        simp only [stGet_set] at hk
        have hne : ¬(k = j ∧ j < acc.states.length) := by
          intro ⟨ha, _⟩
          exact hkj ⟨ha, hjalloc⟩
        rw [if_neg hne] at hk
        exact hk
    · intro k hk
      simp only [stGet_set] at hk
      by_cases hkj : k = j ∧ j < acc.states.length
      · rw [if_pos hkj] at hk
        exact absurd hk (outcome_ne_running env j)
      · rw [if_neg hkj] at hk
        have hne : ¬(k = j ∧ j < acc.alloc.length) := by
          intro ⟨ha, _⟩
          exact hkj ⟨ha, hjlt⟩
        simp only [getD_set, if_neg hne]
        exact h5 k hk
  · rw [if_neg hc]
    exact ⟨h1, h2, h3, h4, h5⟩

theorem launchPass_resinv (g : MiniGraph) (s : Sched) (hinv : ResInv g s) :
    ResInv g (launchPass g s) := by
  rw [launchPass]
  generalize List.range g.n = l
  induction l generalizing s with
  | nil => exact hinv
  | cons j t ih =>
    rw [List.foldl_cons]
    exact ih (launchStep g s j) (launchStep_resinv g s j hinv)

theorem finishPass_resinv (g : MiniGraph) (env : Env) (exited : List Nat)
    (s : Sched) (hinv : ResInv g s) : ResInv g (finishPass g env exited s) := by
  rw [finishPass]
  generalize List.range g.n = l
  induction l generalizing s with
  | nil => exact hinv
  | cons j t ih =>
    rw [List.foldl_cons]
    exact ih (finishStep env exited s j) (finishStep_resinv g env exited s j hinv)

theorem pass_resinv (g : MiniGraph) (env : Env) (exited : List Nat)
    (s : Sched) (hinv : ResInv g s) : ResInv g (pass g env exited s) := by
  rw [pass_eq]
  exact finishPass_resinv g env exited _
    (launchPass_resinv g _ (midPass_resinv g s hinv))

theorem runTrace_resinv (g : MiniGraph) (env : Env) (trace : List (List Nat))
    (s : Sched) (hinv : ResInv g s) : ResInv g (runTrace g env trace s) := by
  induction trace generalizing s with
  | nil => exact hinv
  | cons ex tr ih => exact ih (pass g env ex s) (pass_resinv g env ex s hinv)

theorem initSched_resinv (g : MiniGraph) : ResInv g (initSched g) := by
  refine ⟨List.length_replicate .., List.length_replicate .., ?_, ?_, ?_⟩
  · simp [initSched, List.sum_replicate]
  · intro j _
    show (List.replicate g.n 0).getD j 0 = 0
    by_cases h : j < g.n
    · rw [List.getD_eq_getElem _ _ (by simpa using h)]
      simp
    · rw [List.getD_eq_default _ _ (by simpa using Nat.le_of_not_lt h)]
  · intro j hj
    rw [show (initSched g).states = List.replicate g.n .Pending from rfl,
      stGet_replicate_pending] at hj
    cases hj

theorem sum_getD_range (l : List Nat) :
    ((List.range l.length).map fun j => l.getD j 0).sum = l.sum := by
  induction l with
  | nil => rfl
  | cons x t ih =>
    rw [List.length_cons, List.range_succ_eq_map, List.map_cons, List.map_map]
    simp only [List.getD_cons_zero, Function.comp_def, List.getD_cons_succ]
    rw [List.sum_cons, ih, List.sum_cons]

/-- **C3.** At every instant of every scheduler run, the total cores held by
`Running` jobs never exceed the Site's total core count: the pool counters
never over-allocate. -/
theorem resource_bound (g : MiniGraph) (env : Env) (trace : List (List Nat)) :
    runningCores g (runTrace g env trace (initSched g)) ≤ g.site.totalCores := by
  obtain ⟨h1, h2, h3, h4, h5⟩ :=
    runTrace_resinv g env trace (initSched g) (initSched_resinv g)
  rw [runningCores]
  have hmap : ((List.range g.n).map fun j =>
        if stGet (runTrace g env trace (initSched g)).states j = .Running then
          g.cores.getD j 0
        else 0)
      = (List.range g.n).map fun j =>
          (runTrace g env trace (initSched g)).alloc.getD j 0 := by
    refine List.map_congr_left fun j _ => ?_
    by_cases h : stGet (runTrace g env trace (initSched g)).states j = .Running
    · rw [if_pos h, h5 j h]
    · rw [if_neg h, h4 j h]
  rw [hmap, ← h2, sum_getD_range]
  omega

/-! ## Step 4 acts exactly as specified on exited running jobs -/

theorem launchStep_alloc_length (g : MiniGraph) (acc : Sched) (j : Nat) :
    (launchStep g acc j).alloc.length = acc.alloc.length := by
  rw [launchStep]
  by_cases hc : stGet acc.states j = .Runnable ∧ g.cores.getD j 0 ≤ acc.free
  · rw [if_pos hc]
    exact List.length_set ..
  · rw [if_neg hc]

theorem finishStep_alloc_length (env : Env) (exited : List Nat) (acc : Sched)
    (j : Nat) :
    (finishStep env exited acc j).alloc.length = acc.alloc.length := by
  rw [finishStep]
  by_cases hc : stGet acc.states j = .Running ∧ j ∈ exited
  · rw [if_pos hc]
    exact List.length_set ..
  · rw [if_neg hc]

theorem launchPass_alloc_length (g : MiniGraph) (s : Sched) :
    (launchPass g s).alloc.length = s.alloc.length := by
  rw [launchPass]
  generalize List.range g.n = l
  induction l generalizing s with
  | nil => rfl
  | cons j t ih =>
    rw [List.foldl_cons, ih (launchStep g s j), launchStep_alloc_length]

/-- A job that is not `Runnable` is untouched (state and allocation) by the
launch fold. -/
theorem launch_fold_frozen (g : MiniGraph) (l : List Nat) (acc : Sched)
    (j : Nat) (h : stGet acc.states j ≠ .Runnable) :
    stGet (l.foldl (launchStep g) acc).states j = stGet acc.states j ∧
    (l.foldl (launchStep g) acc).alloc.getD j 0 = acc.alloc.getD j 0 := by
  induction l generalizing acc with
  | nil => exact ⟨rfl, rfl⟩
  | cons k t ih =>
    rw [List.foldl_cons]
    have hstep : stGet (launchStep g acc k).states j = stGet acc.states j ∧
        (launchStep g acc k).alloc.getD j 0 = acc.alloc.getD j 0 := by
      rw [launchStep]
      by_cases hc : stGet acc.states k = .Runnable ∧ g.cores.getD k 0 ≤ acc.free
      · have hkj : j ≠ k := by
          intro he
          rw [← he] at hc
          exact h hc.1
        rw [if_pos hc]
        constructor
        · show stGet (acc.states.set k .Running) j = _
          rw [stGet_set, if_neg (by intro hx; exact hkj hx.1)]
        · show (acc.alloc.set k _).getD j 0 = _
          rw [getD_set, if_neg (by intro hx; exact hkj hx.1)]
      · rw [if_neg hc]
        exact ⟨rfl, rfl⟩
    have hne : stGet (launchStep g acc k).states j ≠ .Runnable := by
      rw [hstep.1]; exact h
    obtain ⟨ih1, ih2⟩ := ih (launchStep g acc k) hne
    exact ⟨by rw [ih1, hstep.1], by rw [ih2, hstep.2]⟩

/-- A terminal job is untouched (state and allocation) by the completion
fold. -/
theorem finish_fold_frozen (env : Env) (exited : List Nat) (l : List Nat)
    (acc : Sched) (j : Nat) (h : isTerminal (stGet acc.states j) = true) :
    stGet (l.foldl (finishStep env exited) acc).states j = stGet acc.states j ∧
    (l.foldl (finishStep env exited) acc).alloc.getD j 0 = acc.alloc.getD j 0 := by
  induction l generalizing acc with
  | nil => exact ⟨rfl, rfl⟩
  | cons k t ih =>
    rw [List.foldl_cons]
    have hstep : stGet (finishStep env exited acc k).states j = stGet acc.states j ∧
        (finishStep env exited acc k).alloc.getD j 0 = acc.alloc.getD j 0 := by
      rw [finishStep]
      by_cases hc : stGet acc.states k = .Running ∧ k ∈ exited
      · have hkj : j ≠ k := by
          intro he
          rw [← he] at hc
          rw [hc.1] at h
          simp [isTerminal] at h
        rw [if_pos hc]
        constructor
        · show stGet (acc.states.set k _) j = _
          rw [stGet_set, if_neg (by intro hx; exact hkj hx.1)]
        · show (acc.alloc.set k 0).getD j 0 = _
          rw [getD_set, if_neg (by intro hx; exact hkj hx.1)]
      · rw [if_neg hc]
        exact ⟨rfl, rfl⟩
    have hterm : isTerminal (stGet (finishStep env exited acc k).states j) = true := by
      rw [hstep.1]; exact h
    obtain ⟨ih1, ih2⟩ := ih (finishStep env exited acc k) hterm
    exact ⟨by rw [ih1, hstep.1], by rw [ih2, hstep.2]⟩

/-- Processing the completion fold over a list containing a `Running` exited
job sets its state to its outcome and clears its allocation. -/
theorem finish_fold_sets (env : Env) (exited : List Nat) (l : List Nat)
    (acc : Sched) (j : Nat) (hj : j < acc.states.length)
    (hja : j < acc.alloc.length) (hrun : stGet acc.states j = .Running)
    (hex : j ∈ exited) (hmem : j ∈ l) :
    stGet (l.foldl (finishStep env exited) acc).states j = outcome env j ∧
    (l.foldl (finishStep env exited) acc).alloc.getD j 0 = 0 := by
  induction l generalizing acc with
  | nil => cases hmem
  | cons k t ih =>
    rw [List.foldl_cons]
    by_cases hkj : k = j
    · subst hkj
      have hstep : finishStep env exited acc k =
          { states := acc.states.set k (outcome env k),
            alloc := acc.alloc.set k 0,
            free := acc.free + acc.alloc.getD k 0 } := by
        rw [finishStep, if_pos ⟨hrun, hex⟩]
      have houtterm : isTerminal (outcome env k) = true := by
        rw [outcome]
        by_cases h : (env.exitOk.getD k false && env.outputsExist.getD k false) = true
        · rw [if_pos h]; rfl
        · rw [if_neg h]; rfl
      have hget : stGet (finishStep env exited acc k).states k = outcome env k := by
        rw [hstep]
        show stGet (acc.states.set k _) k = _
        rw [stGet_set, if_pos ⟨rfl, hj⟩]
      have halloc : (finishStep env exited acc k).alloc.getD k 0 = 0 := by
        rw [hstep]
        show (acc.alloc.set k 0).getD k 0 = _
        rw [getD_set, if_pos ⟨rfl, hja⟩]
      obtain ⟨hf1, hf2⟩ := finish_fold_frozen env exited t
        (finishStep env exited acc k) k (by rw [hget]; exact houtterm)
      exact ⟨by rw [hf1, hget], by rw [hf2, halloc]⟩
    · have hstep : stGet (finishStep env exited acc k).states j = stGet acc.states j ∧
          (finishStep env exited acc k).alloc.getD j 0 = acc.alloc.getD j 0 := by
        rw [finishStep]
        by_cases hc : stGet acc.states k = .Running ∧ k ∈ exited
        · rw [if_pos hc]
          constructor
          · show stGet (acc.states.set k _) j = _
            rw [stGet_set, if_neg (by intro hx; exact hkj hx.1.symm)]
          · show (acc.alloc.set k 0).getD j 0 = _
            rw [getD_set, if_neg (by intro hx; exact hkj hx.1.symm)]
        · rw [if_neg hc]
          exact ⟨rfl, rfl⟩
      have hmem' : j ∈ t := by
        rcases List.mem_cons.mp hmem with h | h
        · exact absurd h.symm hkj
        · exact h
      refine ih (finishStep env exited acc k) ?_ ?_ ?_ hmem'
      · rw [finishStep_states_length]; exact hj
      · rw [finishStep_alloc_length]; exact hja
      · rw [hstep.1]; exact hrun

/-- **C4.** For every `Running` job whose process has exited, the poll pass
moves it to `Succeeded` if and only if the process exit status was success
and every declared output path exists — otherwise to `Failed` — and its
resource allocation is released (cleared and returned to the pool, per the
accounting invariant `ResInv`) in both cases. -/
theorem completion_outcome (g : MiniGraph) (env : Env) (exited : List Nat)
    (s : Sched) (j : Nat) (hst : s.states.length = g.n)
    (hal : s.alloc.length = g.n) (hrun : stGet s.states j = .Running)
    (hex : j ∈ exited) :
    stGet (pass g env exited s).states j =
      (if env.exitOk.getD j false && env.outputsExist.getD j false then
        JobState.Succeeded
      else JobState.Failed) ∧
    (pass g env exited s).alloc.getD j 0 = 0 := by
  have hjn : j < g.n :=
    hst ▸ lt_length_of_stGet_ne_pending s.states j (by rw [hrun]; intro h; cases h)
  have hmid : stGet (midPass g s).states j = .Running :=
    (midPass_running_iff g s j).mpr hrun
  have hmidlen : (midPass g s).states.length = g.n := by
    show (abortCascade g g.n (promote g s.states)).length = g.n
    rw [length_abortCascade, length_promote, hst]
  obtain ⟨hl1, hl2⟩ := launch_fold_frozen g (List.range g.n) (midPass g s) j
    (by rw [hmid]; intro h; cases h)
  have hlaunch : stGet (launchPass g (midPass g s)).states j = .Running := by
    rw [launchPass, hl1, hmid]
  have hlen1 : (launchPass g (midPass g s)).states.length = g.n := by
    rw [launchPass_states_length, hmidlen]
  have hlen2 : (launchPass g (midPass g s)).alloc.length = g.n := by
    rw [launchPass_alloc_length]
    exact hal
  rw [pass_eq, finishPass]
  have := finish_fold_sets env exited (List.range g.n) (launchPass g (midPass g s)) j
    (by rw [hlen1]; exact hjn) (by rw [hlen2]; exact hjn) hlaunch hex
    (List.mem_range.mpr hjn)
  rw [outcome] at this
  exact this

/-- Witness for C4: a concrete `Running` job whose process exits with
failure status moves to `Failed` and its allocation is cleared. -/
theorem completion_outcome_witness :
    stGet (pass gAB envABfail [0]
      (⟨[.Running, .Pending], [1, 0], 1⟩ : Sched)).states 0 = .Failed ∧
    (pass gAB envABfail [0]
      (⟨[.Running, .Pending], [1, 0], 1⟩ : Sched)).alloc.getD 0 0 = 0 := by
  have h := completion_outcome gAB envABfail [0]
    (⟨[.Running, .Pending], [1, 0], 1⟩ : Sched) 0
    (by decide) (by decide) (by decide) (by decide)
  exact ⟨by rw [h.1]; decide, h.2⟩

/-! ## Resume -/

/-- Modelled from the spec: the resume pre-pass. With resume mode enabled,
every job all of whose declared output paths already exist on disk (`disk j =
true`) is marked `Succeeded` at startup without its process being launched;
all other jobs start `Pending`. -/
def resumeInit (g : MiniGraph) (resume : Bool) (disk : List Bool) : Sched :=
  ⟨buildStates g.n fun j =>
      if resume && disk.getD j false then .Succeeded else .Pending,
   List.replicate g.n 0, g.site.totalCores⟩

theorem resumeInit_states_length (g : MiniGraph) (r : Bool) (disk : List Bool) :
    (resumeInit g r disk).states.length = g.n := length_buildStates ..

theorem overallSuccess_of (s : Sched)
    (h : ∀ j, j < s.states.length → stGet s.states j = .Succeeded) :
    overallSuccess s = true := by
  rw [overallSuccess, List.all_eq_true]
  intro x hx
  obtain ⟨j, hj, hxe⟩ := List.mem_iff_getElem.mp hx
  have hg : stGet s.states j = s.states[j] := by
    rw [stGet_eq_getElem?, List.getElem?_eq_getElem hj]
    rfl
  rw [← hxe, ← hg, h j hj]
  rfl

/-- **C7.** With resume enabled, every job all of whose declared outputs
already exist on disk is marked `Succeeded` at startup and is never launched;
consequently, re-running a pipeline whose previous run produced every output
(all `disk` flags true) launches zero jobs and reports overall success. -/
theorem resume_idempotence (g : MiniGraph) (env : Env) (disk : List Bool)
    (trace : List (List Nat)) :
    (∀ j, j < g.n → disk.getD j false = true →
      stGet (resumeInit g true disk).states j = .Succeeded ∧
      ∀ t1 t2, trace = t1 ++ t2 →
        stGet (runTrace g env t1 (resumeInit g true disk)).states j ≠ .Running) ∧
    ((∀ j, j < g.n → disk.getD j false = true) →
      (∀ t1 t2 j, trace = t1 ++ t2 →
        stGet (runTrace g env t1 (resumeInit g true disk)).states j ≠ .Running) ∧
      overallSuccess (runTrace g env trace (resumeInit g true disk)) = true) := by
  have hsucc : ∀ j, j < g.n → disk.getD j false = true →
      stGet (resumeInit g true disk).states j = .Succeeded := by
    intro j hj hd
    show stGet (buildStates g.n _) j = _
    rw [stGet_buildStates, if_pos hj, hd]
    rfl
  have hfrozen : ∀ (t1 : List (List Nat)) j, j < g.n → disk.getD j false = true →
      stGet (runTrace g env t1 (resumeInit g true disk)).states j = .Succeeded := by
    intro t1 j hj hd
    rw [runTrace_term g env t1 _ j (by rw [hsucc j hj hd]; rfl), hsucc j hj hd]
  constructor
  · intro j hj hd
    refine ⟨hsucc j hj hd, fun t1 t2 _ hr => ?_⟩
    rw [hfrozen t1 j hj hd] at hr
    cases hr
  · intro hall
    constructor
    · intro t1 t2 j _ hr
      by_cases hj : j < g.n
      · rw [hfrozen t1 j hj (hall j hj)] at hr
        cases hr
      · rw [stGet_of_le _ (by
          rw [runTrace_states_length, resumeInit_states_length]
          exact Nat.le_of_not_lt hj)] at hr
        cases hr
    · refine overallSuccess_of _ fun j hj => ?_
      rw [runTrace_states_length, resumeInit_states_length] at hj
      exact hfrozen trace j hj (hall j hj)

/-- Witness for C7: after a completed prior run of the two-job pipeline, the
resumed run reports overall success with no job ever launched. -/
theorem resume_idempotence_witness :
    (∀ j, j < gAB.n → ([true, true] : List Bool).getD j false = true) ∧
    overallSuccess (runTrace gAB envAB [[], []]
      (resumeInit gAB true [true, true])) = true :=
  ⟨by decide,
    ((resume_idempotence gAB envAB [true, true] [[], []]).2 (by decide)).2⟩

/-! ## Pipeline graph construction from stage declarations -/

/-- Modelled from the spec: a stage declaration — a unique name and its
declared input and output tags. -/
structure StageDecl where
  name : String
  inputs : List String
  outputs : List String
deriving DecidableEq, Repr

instance : Inhabited StageDecl := ⟨⟨"", [], []⟩⟩

/-- Modelled from the spec: the construction-time error taxonomy. -/
inductive ConstructionError where
  | UnresolvedInputError
  | DuplicateOutputError
  | CycleError
  | MissingConfigError
deriving DecidableEq, Repr

/-- Modelled from the spec: alias resolution — a tag may be remapped to a
different physical name by the run's alias map. -/
def resolveAlias (al : List (String × String)) (t : String) : String :=
  (List.lookup t al).getD t

/-- A stage's output tags after alias resolution. -/
def resolvedOutputs (al : List (String × String)) (d : StageDecl) :
    List String := d.outputs.map (resolveAlias al)

/-- A stage's input tags after alias resolution. -/
def resolvedInputs (al : List (String × String)) (d : StageDecl) :
    List String := d.inputs.map (resolveAlias al)

/-- All resolved output tags of all stages, with multiplicity. -/
def allOutputs (al : List (String × String)) (decls : List StageDecl) :
    List String :=
  (decls.map fun d => resolvedOutputs al d).flatten

/-- Does the list contain a duplicate entry? -/
def hasDup : List String → Bool
  | [] => false
  | x :: xs => xs.contains x || hasDup xs

/-- The stages whose resolved output set contains tag `t`. -/
def producers (al : List (String × String)) (decls : List StageDecl)
    (t : String) : List Nat :=
  (List.range decls.length).filter fun i =>
    (resolvedOutputs al (decls.getD i default)).contains t

/-- Direct predecessors of stage `i`: the producers of each of its resolved
input tags. -/
def predsOf (al : List (String × String)) (decls : List StageDecl) (i : Nat) :
    List Nat :=
  ((resolvedInputs al (decls.getD i default)).map fun t =>
    producers al decls t).flatten

/-- The predecessor lists of all stages. -/
def predsList (al : List (String × String)) (decls : List StageDecl) :
    List (List Nat) :=
  (List.range decls.length).map (predsOf al decls)

/-- Some stage has a resolved input tag that no stage produces and that is
not an overall pipeline input. -/
def unresolvedExists (al : List (String × String)) (external : List String)
    (decls : List StageDecl) : Bool :=
  (List.range decls.length).any fun i =>
    (resolvedInputs al (decls.getD i default)).any fun t =>
      (producers al decls t).isEmpty && !(external.contains t)

/-- Nodes ready at the next level: all predecessors already ordered. -/
def readyStep (preds : List (List Nat)) (s : List Nat) : List Nat :=
  (List.range preds.length).filter fun j =>
    (preds.getD j []).all fun p => s.contains p

/-- The set of nodes orderable within `k` levels of the topological
level-sweep. -/
def readyIter (preds : List (List Nat)) : Nat → List Nat
  | 0 => []
  | k + 1 => readyStep preds (readyIter preds k)

/-- Modelled from the spec: topological validation — the graph is acyclic
iff every node can be placed within `preds.length` levels of the level
sweep. -/
def acyclicCheck (preds : List (List Nat)) : Bool :=
  (List.range preds.length).all fun j =>
    (readyIter preds preds.length).contains j

/-- Modelled from the spec: the constructed PipelineGraph — the stage
declarations plus the derived predecessor relation. -/
structure PipelineGraph where
  stages : List StageDecl
  preds : List (List Nat)
deriving Repr

/-- Modelled from the spec: a Job is created for each stage of a
successfully constructed graph. -/
structure Job where
  stage : Nat
deriving DecidableEq, Repr

/-- The jobs of a constructed graph, one per stage. -/
def mkJobs (pg : PipelineGraph) : List Job :=
  (List.range pg.stages.length).map Job.mk

/-- Modelled from the spec: `build(stageDeclarations, overallInputs,
aliasMap)` — fails with `DuplicateOutputError` if two stages claim the same
resolved output tag, with `CycleError` if the induced tag-dependency graph
is cyclic, and with `UnresolvedInputError` if some input tag matches neither
an external input nor any stage output. -/
def build (al : List (String × String)) (external : List String)
    (decls : List StageDecl) : Except ConstructionError PipelineGraph :=
  if hasDup (allOutputs al decls) then .error .DuplicateOutputError
  else if !acyclicCheck (predsList al decls) then .error .CycleError
  else if unresolvedExists al external decls then .error .UnresolvedInputError
  else .ok ⟨decls, predsList al decls⟩

/-- Graph construction followed by job creation: jobs exist only for a
successfully constructed graph. -/
def createJobs (al : List (String × String)) (external : List String)
    (decls : List StageDecl) : Except ConstructionError (List Job) :=
  (build al external decls).map mkJobs

/-! ## Acyclicity of the level sweep -/

theorem readyStep_mono (preds : List (List Nat)) {s t : List Nat}
    (h : ∀ x, x ∈ s → x ∈ t) :
    ∀ x, x ∈ readyStep preds s → x ∈ readyStep preds t := by
  intro x hx
  rw [readyStep, List.mem_filter] at hx ⊢
  obtain ⟨h1, h2⟩ := hx
  refine ⟨h1, ?_⟩
  rw [List.all_eq_true] at h2 ⊢
  intro p hp
  exact List.elem_iff.mpr (h p (List.elem_iff.mp (h2 p hp)))

theorem readyIter_mono (preds : List (List Nat)) (k : Nat) :
    ∀ x, x ∈ readyIter preds k → x ∈ readyIter preds (k + 1) := by
  induction k with
  | zero => intro x hx; cases hx
  | succ k ih => exact readyStep_mono preds ih

/-- An edge source is orderable strictly earlier than its target. -/
theorem edge_descend (preds : List (List Nat)) {a b k : Nat}
    (he : a ∈ preds.getD b []) (hb : b ∈ readyIter preds k) :
    ∃ k' < k, a ∈ readyIter preds k' := by
  cases k with
  | zero => cases hb
  | succ k =>
    refine ⟨k, Nat.lt_succ_self k, ?_⟩
    rw [readyIter, readyStep, List.mem_filter] at hb
    exact List.elem_iff.mp (List.all_eq_true.mp hb.2 a he)

/-- A node reaching an orderable node is orderable strictly earlier. -/
theorem reaches_descend (preds : List (List Nat)) {a b : Nat}
    (h : Reaches preds a b) :
    ∀ k, b ∈ readyIter preds k → ∃ k' < k, a ∈ readyIter preds k' := by
  induction h with
  | edge he => exact fun k hb => edge_descend preds he hb
  | tail _ he ih =>
    intro k hc
    obtain ⟨m, hm, hbm⟩ := edge_descend preds he hc
    obtain ⟨k', hk', ha⟩ := ih m hbm
    exact ⟨k', Nat.lt_trans hk' hm, ha⟩

/-- If the topological level sweep succeeds, the graph has no cycle. -/
theorem acyclic_no_self (preds : List (List Nat))
    (hacy : acyclicCheck preds = true) (a : Nat) : ¬Reaches preds a a := by
  intro hr
  have ha : a < preds.length := reaches_lt preds hr
  have hmem : a ∈ readyIter preds preds.length := by
    rw [acyclicCheck, List.all_eq_true] at hacy
    exact List.elem_iff.mp (hacy a (List.mem_range.mpr ha))
  have hex : ∃ k, a ∈ readyIter preds k := ⟨preds.length, hmem⟩
  obtain ⟨k', hk', hmem'⟩ := reaches_descend preds hr (Nat.find hex) (Nat.find_spec hex)
  exact Nat.find_min hex hk' hmem'

theorem cycle_check_false (preds : List (List Nat))
    (hcyc : ∃ a, Reaches preds a a) : acyclicCheck preds = false := by
  obtain ⟨a, ha⟩ := hcyc
  cases hb : acyclicCheck preds with
  | false => rfl
  | true => exact absurd ha (acyclic_no_self preds hb a)

/-- **C5.** For every set of stage declarations whose induced tag dependency
graph contains a cycle (and whose resolved outputs pass the earlier
duplicate check), graph construction fails with `CycleError` and no `Job` is
ever created. -/
theorem cycle_error (al : List (String × String)) (external : List String)
    (decls : List StageDecl)
    (hnodup : hasDup (allOutputs al decls) = false)
    (hcyc : ∃ a, Reaches (predsList al decls) a a) :
    build al external decls = .error .CycleError ∧
    createJobs al external decls = .error .CycleError := by
  have hb : build al external decls = .error .CycleError := by
    rw [build, if_neg (by rw [hnodup]; exact Bool.false_ne_true),
      if_pos (by rw [cycle_check_false (predsList al decls) hcyc]; rfl)]
  exact ⟨hb, by rw [createJobs, hb]; rfl⟩

/-- Witness for C5: two stages feeding each other's inputs make construction
fail with `CycleError` and produce no jobs. -/
theorem cycle_error_witness :
    createJobs [] [] [⟨"A", ["y"], ["x"]⟩, ⟨"B", ["x"], ["y"]⟩] =
      .error .CycleError :=
  (cycle_error [] [] [⟨"A", ["y"], ["x"]⟩, ⟨"B", ["x"], ["y"]⟩] (by decide)
    ⟨0, Reaches.tail (Reaches.edge (a := 0) (b := 1) (by decide)) (by decide)⟩).2

/-! ## The single-producer invariant -/

theorem hasDup_eq_false_iff (l : List String) : hasDup l = false ↔ l.Nodup := by
  induction l with
  | nil => simp [hasDup]
  | cons x xs ih =>
    rw [hasDup, Bool.or_eq_false_iff, List.nodup_cons, ih]
    constructor
    · rintro ⟨h1, h2⟩
      refine ⟨fun hm => ?_, h2⟩
      have hc : xs.contains x = true := List.elem_iff.mpr hm
      rw [hc] at h1
      cases h1
    · rintro ⟨h1, h2⟩
      refine ⟨?_, h2⟩
      cases hc : xs.contains x with
      | false => rfl
      | true => exact absurd (List.elem_iff.mp hc) h1

/-- If the flattened resolved output tags have no duplicate, each tag is
produced by at most one stage. -/
theorem nodup_single_producer (al : List (String × String))
    (decls : List StageDecl) (h : hasDup (allOutputs al decls) = false) :
    ∀ t i j, i < decls.length → j < decls.length →
      t ∈ resolvedOutputs al (decls.getD i default) →
      t ∈ resolvedOutputs al (decls.getD j default) → i = j := by
  intro t i j hi hj hti htj
  have hnd : (allOutputs al decls).Nodup := (hasDup_eq_false_iff _).mp h
  rw [allOutputs, List.nodup_flatten] at hnd
  obtain ⟨_, hpair⟩ := hnd
  have hlen : (decls.map fun d => resolvedOutputs al d).length = decls.length :=
    List.length_map ..
  have key : ∀ a b (ha : a < decls.length) (hb : b < decls.length), a < b →
      List.Disjoint (resolvedOutputs al (decls.getD a default))
        (resolvedOutputs al (decls.getD b default)) := by
    intro a b ha hb hab
    have hd := List.pairwise_iff_getElem.mp hpair a b
      (by rw [hlen]; exact ha) (by rw [hlen]; exact hb) hab
    rw [List.getElem_map, List.getElem_map] at hd
    rw [List.getD_eq_getElem _ _ ha, List.getD_eq_getElem _ _ hb]
    exact hd
  by_contra hij
  rcases Nat.lt_or_ge i j with hlt | hge
  · exact key i j hi hj hlt hti htj
  · have hlt : j < i := Nat.lt_of_le_of_ne hge (fun he => hij he.symm)
    exact key j i hj hi hlt htj hti

/-- **C6.** For every successfully constructed pipeline graph, each resolved
tag is produced by at most one stage; and whenever two distinct stages claim
the same resolved output tag, construction fails with `DuplicateOutputError`
before any `Job` exists. -/
theorem single_producer (al : List (String × String)) (external : List String)
    (decls : List StageDecl) :
    (∀ pg, build al external decls = .ok pg →
      ∀ t i j, i < decls.length → j < decls.length →
        t ∈ resolvedOutputs al (decls.getD i default) →
        t ∈ resolvedOutputs al (decls.getD j default) → i = j) ∧
    (∀ t i j, i < decls.length → j < decls.length → i ≠ j →
      t ∈ resolvedOutputs al (decls.getD i default) →
      t ∈ resolvedOutputs al (decls.getD j default) →
      build al external decls = .error .DuplicateOutputError ∧
      createJobs al external decls = .error .DuplicateOutputError) := by
  constructor
  · intro pg hok t i j hi hj hti htj
    have hnd : hasDup (allOutputs al decls) = false := by
      cases hb : hasDup (allOutputs al decls) with
      | false => rfl
      | true => rw [build, if_pos hb] at hok; cases hok
    exact nodup_single_producer al decls hnd t i j hi hj hti htj
  · intro t i j hi hj hij hti htj
    have hdup : hasDup (allOutputs al decls) = true := by
      cases hb : hasDup (allOutputs al decls) with
      | true => rfl
      | false =>
        exact absurd (nodup_single_producer al decls hb t i j hi hj hti htj) hij
    have hb : build al external decls = .error .DuplicateOutputError := by
      rw [build, if_pos hdup]
    exact ⟨hb, by rw [createJobs, hb]; rfl⟩

/-- Witness for C6: two stages both declaring output tag `x` with no alias
remapping make construction fail with `DuplicateOutputError` and produce no
jobs. -/
theorem single_producer_witness :
    createJobs [] [] [⟨"A", [], ["x"]⟩, ⟨"B", [], ["x"]⟩] =
      .error .DuplicateOutputError :=
  ((single_producer [] [] [⟨"A", [], ["x"]⟩, ⟨"B", [], ["x"]⟩]).2 "x" 0 1
    (by decide) (by decide) (by decide) (by decide) (by decide)).2

/-! ## Per-stage configuration resolution -/

/-- Modelled from the spec: one option lookup over the four ordered sources —
the command line, the stage's own config section, the `global` section, and
the declared default (`none` when the option has no default). -/
def resolveOption (cmdline stageSec globalSec : List (String × String))
    (nm : String) (dflt : Option String) : Option String :=
  match List.lookup nm cmdline with
  | some v => some v
  | none =>
    match List.lookup nm stageSec with
    | some v => some v
    | none =>
      match List.lookup nm globalSec with
      | some v => some v
      | none => dflt

/-- Modelled from the spec: per-stage configuration resolution over the
declared option schema (option name ↦ optional default), performed once per
stage at graph-build time; fails with `MissingConfigError` when a required
option (no default) is supplied by no source. -/
def resolveConfig (cmdline stageSec globalSec : List (String × String)) :
    List (String × Option String) →
      Except ConstructionError (List (String × String))
  | [] => .ok []
  | (nm, dflt) :: rest =>
    match resolveOption cmdline stageSec globalSec nm dflt with
    | some v =>
      (resolveConfig cmdline stageSec globalSec rest).map fun m => (nm, v) :: m
    | none => .error .MissingConfigError

theorem resolveOption_eq_none_iff (cmdline stageSec globalSec :
    List (String × String)) (nm : String) (dflt : Option String) :
    resolveOption cmdline stageSec globalSec nm dflt = none ↔
      List.lookup nm cmdline = none ∧ List.lookup nm stageSec = none ∧
      List.lookup nm globalSec = none ∧ dflt = none := by
  rw [resolveOption]
  cases h1 : List.lookup nm cmdline <;>
    cases h2 : List.lookup nm stageSec <;>
      cases h3 : List.lookup nm globalSec <;> simp

/-- In a successfully resolved configuration, each schema option's value is
the result of the four-source overlay lookup. -/
theorem resolveConfig_ok_lookup (cmdline stageSec globalSec :
    List (String × String)) (schema : List (String × Option String))
    (m : List (String × String))
    (hok : resolveConfig cmdline stageSec globalSec schema = .ok m)
    (hnd : (schema.map Prod.fst).Nodup) :
    ∀ nm dflt, (nm, dflt) ∈ schema →
      List.lookup nm m = resolveOption cmdline stageSec globalSec nm dflt := by
  induction schema generalizing m with
  | nil => intro nm dflt hmem; cases hmem
  | cons hd rest ih =>
    obtain ⟨nm', dflt'⟩ := hd
    intro nm dflt hmem
    rw [resolveConfig] at hok
    cases hro : resolveOption cmdline stageSec globalSec nm' dflt' with
    | none => rw [hro] at hok; cases hok
    | some v =>
      rw [hro] at hok
      cases hrest : resolveConfig cmdline stageSec globalSec rest with
      | error e => rw [hrest] at hok; cases hok
      | ok m' =>
        rw [hrest] at hok
        have hm : m = (nm', v) :: m' := by
          cases hok
          rfl
        subst hm
        rw [List.map_cons, List.nodup_cons] at hnd
        rcases List.mem_cons.mp hmem with he | hmem'
        · have h1 : nm = nm' := congrArg Prod.fst he
          have h2 : dflt = dflt' := congrArg Prod.snd he
          subst h1
          subst h2
          rw [List.lookup, beq_self_eq_true]
          exact hro.symm
        · have hne : nm ≠ nm' := by
            intro he
            have hin : nm ∈ List.map Prod.fst rest :=
              List.mem_map.mpr ⟨(nm, dflt), hmem', rfl⟩
            exact hnd.1 (he ▸ hin)
          rw [List.lookup, show (nm == nm') = false from beq_eq_false_iff_ne.mpr hne]
          exact ih m' hrest hnd.2 nm dflt hmem'

/-- **C8.** For every stage option, the resolved value comes from the first
of the four sources (command line ≻ stage section ≻ global section ≻
declared default) that supplies it, resolved once per stage over the option
schema; and resolution fails with `MissingConfigError` iff some option with
no declared default is supplied by none of the three sources. -/
theorem config_resolution (cmdline stageSec globalSec :
    List (String × String)) (schema : List (String × Option String)) :
    (∀ m, resolveConfig cmdline stageSec globalSec schema = .ok m →
      (schema.map Prod.fst).Nodup →
      ∀ nm dflt, (nm, dflt) ∈ schema →
        (∀ v, List.lookup nm cmdline = some v → List.lookup nm m = some v) ∧
        (List.lookup nm cmdline = none →
          ∀ v, List.lookup nm stageSec = some v → List.lookup nm m = some v) ∧
        (List.lookup nm cmdline = none → List.lookup nm stageSec = none →
          ∀ v, List.lookup nm globalSec = some v → List.lookup nm m = some v) ∧
        (List.lookup nm cmdline = none → List.lookup nm stageSec = none →
          List.lookup nm globalSec = none → List.lookup nm m = dflt)) ∧
    (resolveConfig cmdline stageSec globalSec schema =
        .error .MissingConfigError ↔
      ∃ nm, (nm, (none : Option String)) ∈ schema ∧
        List.lookup nm cmdline = none ∧ List.lookup nm stageSec = none ∧
        List.lookup nm globalSec = none) := by
  constructor
  · intro m hok hnd nm dflt hmem
    have hl := resolveConfig_ok_lookup cmdline stageSec globalSec schema m hok
      hnd nm dflt hmem
    refine ⟨?_, ?_, ?_, ?_⟩
    · intro v hv
      rw [hl, resolveOption, hv]
    · intro h1 v hv
      rw [hl, resolveOption, h1, hv]
    · intro h1 h2 v hv
      rw [hl, resolveOption, h1, h2, hv]
    · intro h1 h2 h3
      rw [hl, resolveOption, h1, h2, h3]
  · induction schema with
    | nil =>
      constructor
      · intro h; cases h
      · rintro ⟨nm, hmem, -⟩; cases hmem
    | cons hd rest ih =>
      obtain ⟨nm', dflt'⟩ := hd
      rw [resolveConfig]
      constructor
      · intro herr
        cases hro : resolveOption cmdline stageSec globalSec nm' dflt' with
        | none =>
          obtain ⟨h1, h2, h3, h4⟩ :=
            (resolveOption_eq_none_iff cmdline stageSec globalSec nm' dflt').mp hro
          exact ⟨nm', by rw [← h4]; exact List.mem_cons_self .., h1, h2, h3⟩
        | some v =>
          rw [hro] at herr
          cases hrest : resolveConfig cmdline stageSec globalSec rest with
          | ok m' => rw [hrest] at herr; cases herr
          | error e =>
            rw [hrest] at herr
            have he : e = .MissingConfigError := by
              cases herr
              rfl
            obtain ⟨nm, hmem, hc⟩ := ih.mp (by rw [hrest, he])
            exact ⟨nm, List.mem_cons_of_mem _ hmem, hc⟩
      · rintro ⟨nm, hmem, h1, h2, h3⟩
        rcases List.mem_cons.mp hmem with he | hmem'
        · have ha : nm = nm' := congrArg Prod.fst he
          have hb : (none : Option String) = dflt' := congrArg Prod.snd he
          subst ha
          rw [show resolveOption cmdline stageSec globalSec nm dflt' = none from
            (resolveOption_eq_none_iff ..).mpr ⟨h1, h2, h3, hb.symm⟩]
        · cases hro : resolveOption cmdline stageSec globalSec nm' dflt' with
          | none => rfl
          | some v =>
            rw [ih.mpr ⟨nm, hmem', h1, h2, h3⟩]
            rfl

/-- Witness for C8: an option with no default supplied by no source makes
resolution fail with `MissingConfigError`. -/
theorem config_resolution_witness :
    resolveConfig [] [] [] [("a", (none : Option String))] =
      .error .MissingConfigError :=
  (config_resolution [] [] [] [("a", none)]).2.mpr
    ⟨"a", by decide, rfl, rfl, rfl⟩

/-! ## Parallelization attributes of a stage -/

/-- Modelled from the spec: a stage's public parallelization attributes
(`comm`, `rank`, `size`); the docs state that without MPI, `comm` is None,
`rank` is 0 and `size` is 1. The communicator handle is modelled as an
opaque numeric id. -/
structure ParallelContext where
  comm : Option Nat
  rank : Nat
  size : Nat
deriving DecidableEq, Repr

/-- Modelled from the spec: construction of a stage's parallelization
context — under MPI the world communicator/rank/size are exposed; without
MPI the serial values are used regardless of the ambient world state. -/
def setupParallel (useMpi : Bool) (worldComm worldRank worldSize : Nat) :
    ParallelContext :=
  if useMpi then ⟨some worldComm, worldRank, worldSize⟩ else ⟨none, 0, 1⟩

/-- **C9.** For every stage instance executed without MPI parallelism, the
parallelization attributes are fixed: `comm` is None, `rank` is 0 and `size`
is 1, whatever the ambient world communicator state. -/
theorem serial_parallel_attrs (c r s : Nat) :
    (setupParallel false c r s).comm = none ∧
    (setupParallel false c r s).rank = 0 ∧
    (setupParallel false c r s).size = 1 :=
  ⟨rfl, rfl, rfl⟩

/-! ## The mini launcher's poll interval -/

/-- Modelled from the spec: the mini launcher's configuration — its one
option `interval`, the number of seconds between completion checks of
running stages (optional; the test configuration uses `0.5`, hence a
rational value). -/
structure MiniLauncherConfig where
  interval : Option ℚ
deriving DecidableEq, Repr

/-- Modelled from the spec: the poll interval used by the scheduler's sleep,
defaulting to three seconds when the `interval` option is omitted. -/
def pollInterval (c : MiniLauncherConfig) : ℚ := c.interval.getD 3

/-- **C10.** For every mini-launcher configuration that omits the `interval`
option, the scheduler's poll interval defaults to exactly 3 seconds. -/
theorem interval_default (c : MiniLauncherConfig) (h : c.interval = none) :
    pollInterval c = 3 := by
  rw [pollInterval, h]
  rfl

/-- Witness for C10: the empty mini-launcher configuration yields a poll
interval of 3 seconds. -/
theorem interval_default_witness :
    (MiniLauncherConfig.mk none).interval = none ∧
    pollInterval (MiniLauncherConfig.mk none) = 3 :=
  ⟨rfl, interval_default ⟨none⟩ rfl⟩

end Ceci
